import Mathlib

/-!
Formal model of the MyMedia lead-scraper contact-enrichment pipeline
(`app.py`, `cache.py`, `models.py`, `enrichment/contact_enricher.py`,
`scrapers/website_scraper.py`).

Python strings are modelled as `String` where they are only carried, and as
their character sequences (`List Char`, abbreviated `Url`) where they are
manipulated.  Machine floats occur only as carried data (`google_rating`)
and as `time.time()` values; the latter are modelled as integers, which is
faithful to every comparison the code performs.  The network, the LLM
oracle and the headless browser are external and appear as explicit
function parameters of the definitions that use them.
-/

namespace MyMedia

/-- Character-sequence view of a Python `str`, used wherever the source
manipulates the text of a URL or of a page. -/
abbrev Url := List Char

/-- Model of `models.ContactPerson` (pydantic model; every field defaults
to the empty string). -/
structure ContactPerson where
  name : String := ""
  title : String := ""
  email : String := ""
  email_source : String := ""
  phone : String := ""
deriving DecidableEq

/-- Model of `models.Business` (pydantic model).  `google_rating` is a
Python float that is only ever stored and never computed with; it is
modelled as a rational. -/
structure Business where
  name : String := ""
  category : String := ""
  address : String := ""
  city : String := ""
  phone : String := ""
  website : String := ""
  company_emails : List String := []
  google_rating : Option ℚ := none
  review_count : Option Int := none
  contact_persons : List ContactPerson := []
deriving DecidableEq

instance : Inhabited Business := ⟨{}⟩

/-! ## cache.py -/

/-- Model of `cache._TTL_SECONDS = 7 * 24 * 3600`. -/
def TTL_SECONDS : Int := 7 * 24 * 3600

/-- Model of the sqlite `cache` table: rows `(key, value, created_at)` with
`key` the primary key.  `created_at` (a `time.time()` float) is modelled as
an integer number of seconds. -/
abbrev CacheStore := List (String × String × Int)

/-- Row lookup by primary key, as in
`SELECT value, created_at FROM cache WHERE key = ?`. -/
def lookupKey : CacheStore → String → Option (String × Int)
  | [], _ => none
  | (k, v, t) :: rest, key => if k = key then some (v, t) else lookupKey rest key

/-- Model of the write path of `set_cached_businesses` and
`set_cached_enrichment`:
`INSERT OR REPLACE INTO cache (key, value, created_at) VALUES (?, ?, time.time())`. -/
def cacheSet (st : CacheStore) (key value : String) (now : Int) : CacheStore :=
  (key, value, now) :: st.filter (fun e => e.1 ≠ key)

/-- Model of the read path of `get_cached_businesses` and
`get_cached_enrichment`: a missing row, or a row with
`time.time() - created_at > _TTL_SECONDS`, reads as `None`; otherwise the
stored value is returned. -/
def cacheGet (st : CacheStore) (key : String) (now : Int) : Option String :=
  match lookupKey st key with
  | none => none
  | some (v, created) => if now - created > TTL_SECONDS then none else some v

/-- Model of the hash input of `cache._cache_key`: `"|".join(parts)`.  The
subsequent SHA-256 step is collision-resistant and is not modelled — the
claims about key distinctness are stated about this encoding, as in the
spec phrase "up to SHA-256 collisions". -/
def joinBar : List Url → Url
  | [] => []
  | [p] => p
  | p :: rest => p ++ '|' :: joinBar rest

/-- The full encoding `_cache_key` feeds to the hash, over its `*parts`
string arguments. -/
def cacheKeyRaw (parts : List String) : Url := joinBar (parts.map String.data)

/-! ## Shared string helpers (Python `str.strip`, regex pieces) -/

/-- Python whitespace, as removed by `str.strip()`. -/
def isPySpace (c : Char) : Bool :=
  c = ' ' || c = '\t' || c = '\n' || c = '\r' || c = '\x0b' || c = '\x0c'

/-- Model of Python `str.strip()`. -/
def pyStrip (cs : List Char) : List Char :=
  ((cs.dropWhile isPySpace).reverse.dropWhile isPySpace).reverse

/-! ## enrichment/contact_enricher.py -/

/-- Model of `contact_enricher.MAX_TEXT_PER_REQUEST`. -/
def MAX_TEXT_PER_REQUEST : Nat := 15000

/-- Model of the loop of `ContactEnricher._combine_pages`, walking the
`(page_name, text)` items of the pages dict (dicts preserve insertion
order) with a running total of included characters: once the remaining
budget is exhausted (`remaining <= 0`) the loop breaks; otherwise the page
text is cut to the remaining budget (`text[:remaining]`).  The result here
keeps the `(page_name, chunk)` pairs; rendering and joining are below. -/
def combineParts (totalLen : Nat) : List (Url × Url) → List (Url × Url)
  | [] => []
  | (pageName, text) :: rest =>
    if MAX_TEXT_PER_REQUEST - totalLen = 0 then []
    else
      (pageName, text.take (MAX_TEXT_PER_REQUEST - totalLen)) ::
        combineParts (totalLen + (text.take (MAX_TEXT_PER_REQUEST - totalLen)).length) rest

/-- Model of the f-string `--- Seite: {page_name} ---\n{chunk}`. -/
def renderPart (pageName chunk : Url) : Url :=
  "--- Seite: ".data ++ pageName ++ " ---\n".data ++ chunk

/-- Model of `ContactEnricher._combine_pages`: the rendered parts joined
with `"\n\n"`. -/
def combinePages (pages : List (Url × Url)) : Url :=
  List.intercalate "\n\n".data ((combineParts 0 pages).map (fun p => renderPart p.1 p.2))

/-- One JSON object of the `contacts` array of the oracle response, after
`json.loads`: the four fields read by `c.get(...)`, an absent key reading
as the empty string (the `name` falsy test treats a missing and an empty
name alike). -/
structure RawContact where
  name : String := ""
  title : String := ""
  email : String := ""
  phone : String := ""
deriving DecidableEq

/-- Character class `[a-zA-Z0-9._%+\-]` of `_EMAIL_RE` (local part). -/
def isLocalChar (c : Char) : Bool :=
  c.isAlpha || c.isDigit || c = '.' || c = '_' || c = '%' || c = '+' || c = '-'

/-- Character class `[a-zA-Z0-9.\-]` of `_EMAIL_RE` (domain part). -/
def isDomChar (c : Char) : Bool := c.isAlpha || c.isDigit || c = '.' || c = '-'

/-- Full-anchor match of the domain piece `[a-zA-Z0-9.\-]+\.[a-zA-Z]{2,}`
of `_EMAIL_RE`.  Equivalently: split the domain at its LAST dot — the part
before must be non-empty over the domain class, the part after must be two
or more alphabetic characters.  (No dot other than the last can witness the
regex match, because the tail after an earlier dot would itself contain a
dot and `[a-zA-Z]{2,}` admits none.) -/
def domainOk (domain : List Char) : Bool :=
  let tld := (domain.reverse.takeWhile (fun c => c ≠ '.')).reverse
  if tld.length = domain.length then false
  else
    let d := domain.take (domain.length - tld.length - 1)
    !d.isEmpty && d.all isDomChar && 2 ≤ tld.length && tld.all (fun c => c.isAlpha)

/-- Anchored match of `_EMAIL_RE =
^[a-zA-Z0-9._%+\-]+@[a-zA-Z0-9.\-]+\.[a-zA-Z]{2,}$` against an already
stripped string.  Neither character class contains `@`, so a matching
string has exactly one `@`: the local part is everything before the first
`@`, the domain everything after it (a second `@` would fail the domain
classes). -/
def isValidEmailCore (cs : List Char) : Bool :=
  match cs.dropWhile (fun c => c ≠ '@') with
  | [] => false
  | _ :: domain =>
    let locPart := cs.takeWhile (fun c => c ≠ '@')
    !locPart.isEmpty && locPart.all isLocalChar && domainOk domain

/-- Model of `contact_enricher._is_valid_email`:
`bool(_EMAIL_RE.match(email.strip()))`.  After the strip there is no
trailing newline, so the `$` anchor is an end-of-string anchor and the
match is full-string. -/
def isValidEmail (email : String) : Bool := isValidEmailCore (pyStrip email.data)

/-- The per-candidate body of the loop of
`ContactEnricher._parse_llm_response`: an email failing
`_is_valid_email` is blanked (the contact itself is kept), and
`email_source` is `"website"` exactly when an email survives. -/
def convertContact (c : RawContact) : ContactPerson :=
  let email := if c.email ≠ "" && !isValidEmail c.email then "" else c.email
  { name := c.name, title := c.title, email := email,
    email_source := if email ≠ "" then "website" else "", phone := c.phone }

/-- The candidate loop of `ContactEnricher._parse_llm_response`: candidates
with a falsy `name` are skipped; the rest are converted in order. -/
def parseContacts : List RawContact → List ContactPerson
  | [] => []
  | c :: rest =>
    if c.name = "" then parseContacts rest
    else convertContact c :: parseContacts rest

/-- Model of lines 90–96 of `ContactEnricher.enrich_business`: a non-empty
extraction overwrites `contact_persons` with the first two contacts
(`contacts[:2]`); an empty extraction leaves the business untouched. -/
def applyContacts (b : Business) (contacts : List ContactPerson) : Business :=
  if contacts = [] then b else { b with contact_persons := contacts.take 2 }

/-- External calls a single enrichment makes. -/
inductive Effect where
  | pageFetch
  | oracleCall
deriving DecidableEq

/-- Model of `ContactEnricher.enrich_business`, with the scraper and the
oracle as explicit parameters: `fetchPages website` models
`scraper.fetch_contact_pages` (the pages dict as ordered
`(label, text)` pairs), and `oracle text` models the chat completion on the
combined text together with the JSON decode of its `contacts` array (the
structured mailto/tel hints only alter the prompt and are folded into the
oracle parameter).  The second component is the trace of external calls;
the `time.sleep` pacing, debug dumps and the write-through cache update are
effects on the outside world and are not part of the returned value. -/
def enrichBusiness (fetchPages : String → List (Url × Url))
    (oracle : Url → List RawContact) (b : Business) : Business × List Effect :=
  if b.website = "" then (b, [])
  else
    let pages := fetchPages b.website
    if pages = [] then (b, [Effect.pageFetch])
    else
      let contacts := parseContacts (oracle (combinePages pages))
      (applyContacts b contacts, [Effect.pageFetch, Effect.oracleCall])

/-! ## scrapers/website_scraper.py -/

/-- Model of `website_scraper.MAX_URLS`. -/
def MAX_URLS : Nat := 200

/-- Model of `website_scraper.CRAWL_DEPTH`. -/
def CRAWL_DEPTH : Nat := 2

/-- The extensions of `_is_asset`, with their leading dot. -/
def ASSET_EXTS : List (List Char) :=
  [".pdf".data, ".jpg".data, ".jpeg".data, ".png".data, ".gif".data,
   ".svg".data, ".webp".data, ".zip".data, ".rar".data, ".7z".data, ".xml".data]

/-- Model of `website_scraper._is_asset`:
`re.search(r"\.(?:pdf|jpg|jpeg|png|gif|svg|webp|zip|rar|7z|xml)$", url, re.I)`.
Every call site passes an already stripped URL, so `$` anchors at the end
of the string and the test is a case-insensitive suffix check. -/
def isAsset (url : Url) : Bool :=
  ASSET_EXTS.any (fun ext => ext.isSuffixOf (url.map Char.toLower))

/-- Model of `re.sub(r"#.*$", "", url)` in `_normalize_url`.  Without
`re.M`, `$` anchors at the end of the string or just before one trailing
newline, and `.` does not match a newline; the substitution therefore cuts
the string at the first `#` of its final line and leaves any earlier line
untouched.  The call site strips the URL first, so it carries no trailing
newline and the final line is everything after the last `\n`. -/
def stripFragment (cs : List Char) : List Char :=
  let lastLine := (cs.reverse.takeWhile (fun c => c ≠ '\n')).reverse
  cs.take (cs.length - lastLine.length) ++ lastLine.takeWhile (fun c => c ≠ '#')

/-- Model of `website_scraper._normalize_url`: strip; a falsy result or a
`mailto:`/`tel:` pseudo-scheme yields `None`; otherwise the fragment is cut
(query strings are kept).  Note the result may be the empty string, which
callers re-test for falsiness. -/
def normalizeUrl (url : Url) : Option Url :=
  let u := pyStrip url
  if u = [] ∨ "mailto:".data.isPrefixOf u ∨ "tel:".data.isPrefixOf u then none
  else some (stripFragment u)

/-- Model of the `<loc>` loop of `WebsiteScraper._parse_sitemap`, given the
text contents of the `<loc>` elements of a successfully fetched and parsed
sitemap: falsy (absent or empty) texts are skipped, the rest are stripped,
assets are dropped, and the list is capped at `MAX_URLS`.  Fragments are
not stripped on this path. -/
def parseSitemapLocs (locs : List Url) : List Url :=
  (locs.filterMap (fun t =>
    if t = [] then none
    else if isAsset (pyStrip t) then none else some (pyStrip t))).take MAX_URLS

/-- Discovery tiers of `WebsiteScraper._discover_urls`. -/
inductive Tier where
  | sitemap
  | commonPath
  | crawl
deriving DecidableEq

/-- Model of `WebsiteScraper._discover_urls`.  Each tier performs network
traffic, so its outcome under the ambient network is supplied as a
parameter: `sitemapUrls` is what `_parse_sitemap` returns, `commonUrls`
what `_probe_common_paths` returns, `crawlUrls` what `_crawl_site` returns.
The second component instruments the if/elif chain with the list of tiers
actually invoked, in order: a tier is invoked only when every earlier tier
returned an empty (falsy) list. -/
def discoverUrls (sitemapUrls commonUrls crawlUrls : List Url) : List Url × List Tier :=
  if sitemapUrls ≠ [] then (sitemapUrls, [Tier.sitemap])
  else if commonUrls ≠ [] then (commonUrls, [Tier.sitemap, Tier.commonPath])
  else (crawlUrls, [Tier.sitemap, Tier.commonPath, Tier.crawl])

/-- Model of the `while` loop of `WebsiteScraper._crawl_site`, with the
network as a parameter: `fetchLinks u` models `_extract_links(html, u)`
for a successful `_fetch_html u` and `[]` for a failed fetch, and `hostOf`
models `_host` (`urlparse(url).netloc.lower()`, empty on parse failure).
`fuel` bounds the number of loop iterations; the source loop runs until
the queue empties or the limit is reached, and every theorem below holds
for all fuel values. -/
def crawlLoop (fetchLinks : Url → List Url) (hostOf : Url → Url) (baseHost : Url)
    (maxDepth limit : Nat) :
    Nat → List (Url × Nat) → List Url → List Url → List Url
  | 0, _, _, results => results
  | _ + 1, [], _, results => results
  | fuel + 1, (rawUrl, depth) :: queue, seen, results =>
    if limit ≤ results.length then results
    else
      match normalizeUrl rawUrl with
      | none => crawlLoop fetchLinks hostOf baseHost maxDepth limit fuel queue seen results
      | some url =>
        if url = [] ∨ url ∈ seen then
          crawlLoop fetchLinks hostOf baseHost maxDepth limit fuel queue seen results
        else if isAsset url then
          crawlLoop fetchLinks hostOf baseHost maxDepth limit fuel queue seen results
        else if baseHost ≠ [] ∧ hostOf url ≠ baseHost then
          crawlLoop fetchLinks hostOf baseHost maxDepth limit fuel queue seen results
        else
          if maxDepth ≤ depth then
            crawlLoop fetchLinks hostOf baseHost maxDepth limit fuel
              queue (url :: seen) (results ++ [url])
          else
            crawlLoop fetchLinks hostOf baseHost maxDepth limit fuel
              (queue ++ ((fetchLinks url).filter (fun l => l ∉ url :: seen)).map
                (fun l => (l, depth + 1)))
              (url :: seen) (results ++ [url])

/-- Model of `WebsiteScraper._crawl_site(base_url, max_depth, limit)`:
seed the queue with `(base_url, 0)`, empty visited set, empty results. -/
def crawlSite (fetchLinks : Url → List Url) (hostOf : Url → Url) (baseUrl : Url)
    (maxDepth limit fuel : Nat) : List Url :=
  crawlLoop fetchLinks hostOf (hostOf baseUrl) maxDepth limit fuel [(baseUrl, 0)] [] []

/-! ## app.py orchestrator -/

/-- Model of `app._enrich_worker` for item `idx`: a cache hit
short-circuits the pipeline; otherwise the per-item pipeline runs, any
raised error (`except Exception`) being caught at this boundary and the
business returned unenriched.  `cache name website` models
`get_cached_enrichment`; `pipeline idx b` models
`enrichers[idx % MAX_WORKERS].enrich_business(b)`, with `none` standing
for a raised exception.  The write-through `set_cached_enrichment` only
mutates the store (and swallows its own errors) and is not part of the
returned value. -/
def enrichWorker (cache : String → String → Option Business)
    (pipeline : Nat → Business → Option Business) (idx : Nat) (b : Business) : Business :=
  match cache b.name b.website with
  | some cached => cached
  | none =>
    match pipeline idx b with
    | some enriched => enriched
    | none => b

/-- Model of the `ThreadPoolExecutor` batch loop of `app.py`:
`enriched = [None] * len(businesses)`, one future per index, and each
completed future fills its own slot (`enriched[idx] = result_biz`).
`order` is the completion order the `as_completed` iterator observes — any
permutation of the indices. -/
def runBatchSlots (cache : String → String → Option Business)
    (pipeline : Nat → Business → Option Business)
    (businesses : List Business) (order : List Nat) : List (Option Business) :=
  order.foldl
    (fun slots idx =>
      slots.set idx (some (enrichWorker cache pipeline idx (businesses.getD idx default))))
    (List.replicate businesses.length none)

/-- The list `app.py` continues with after the pool block
(`businesses = enriched`); after the loop every slot is filled. -/
def runBatch (cache : String → String → Option Business)
    (pipeline : Nat → Business → Option Business)
    (businesses : List Business) (order : List Nat) : List Business :=
  (runBatchSlots cache pipeline businesses order).map (fun slot => slot.getD default)

end MyMedia

namespace MyMedia

/-- C5: a get immediately after a set of the same key returns the stored
value; a get when the age of the entry written by the set exceeds the 7-day
TTL returns absent; and a set always overwrites any existing entry for the
key with a fresh timestamp. -/
theorem C5_cache_ttl (st : CacheStore) (key value : String) (tSet tLate : Int)
    (hexp : tLate - tSet > TTL_SECONDS) :
    cacheGet (cacheSet st key value tSet) key tSet = some value ∧
    cacheGet (cacheSet st key value tSet) key tLate = none ∧
    lookupKey (cacheSet st key value tSet) key = some (value, tSet) := by
  have hl : lookupKey (cacheSet st key value tSet) key = some (value, tSet) := by
    simp [cacheSet, lookupKey]
  refine ⟨?_, ?_, hl⟩
  · rw [cacheGet, hl]
    simp [TTL_SECONDS]
  · rw [cacheGet, hl]
    simp only [if_pos hexp]

/-- Witness for C5 at a concrete store, key and pair of read times. -/
theorem C5_cache_ttl_witness :
    ((700000 : Int) - 0 > TTL_SECONDS) ∧
    (cacheGet (cacheSet [("k", "old", -5)] "k" "v" 0) "k" 0 = some "v" ∧
     cacheGet (cacheSet [("k", "old", -5)] "k" "v" 0) "k" 700000 = none ∧
     lookupKey (cacheSet [("k", "old", -5)] "k" "v" 0) "k" = some ("v", 0)) :=
  ⟨by decide, C5_cache_ttl [("k", "old", -5)] "k" "v" 0 700000 (by decide)⟩

/-- C2: discovery tiers are strictly prioritized and mutually exclusive —
a non-empty sitemap tier is returned as-is with the later tiers never
invoked; an empty sitemap and non-empty common-path tier returns the
common-path result with the crawl tier never invoked; and the returned
list is always exactly one tier output, never a merge. -/
theorem C2_discovery_tiers (s c k : List Url) :
    (s ≠ [] → discoverUrls s c k = (s, [Tier.sitemap])) ∧
    (s = [] → c ≠ [] → discoverUrls s c k = (c, [Tier.sitemap, Tier.commonPath])) ∧
    (s = [] → c = [] →
      discoverUrls s c k = (k, [Tier.sitemap, Tier.commonPath, Tier.crawl])) ∧
    ((discoverUrls s c k).1 = s ∨ (discoverUrls s c k).1 = c ∨ (discoverUrls s c k).1 = k) := by
  by_cases hs : s = [] <;> by_cases hc : c = [] <;>
    simp [discoverUrls, hs, hc]

/-- Witness for C2: a non-empty sitemap tier short-circuits discovery. -/
theorem C2_discovery_tiers_witness :
    (["https://x/a".data] ≠ ([] : List Url)) ∧
    discoverUrls ["https://x/a".data] ["https://x/team".data] [] =
      (["https://x/a".data], [Tier.sitemap]) :=
  ⟨by decide, (C2_discovery_tiers ["https://x/a".data] ["https://x/team".data] []).1 (by decide)⟩

/-- C10: a business without a website is returned unchanged (every field,
including the contact list) and the enrichment performs no page fetch and
no oracle call. -/
theorem C10_no_website (fetchPages : String → List (Url × Url))
    (oracle : Url → List RawContact) (b : Business) (h : b.website = "") :
    enrichBusiness fetchPages oracle b = (b, []) := by
  simp [enrichBusiness, h]

/-- Witness for C10, with an environment that would have produced pages
and contacts had it been consulted. -/
theorem C10_no_website_witness :
    ({ name := "X", website := "" } : Business).website = "" ∧
    enrichBusiness (fun _ => [("homepage".data, "Dr. A, a@b.co".data)])
      (fun _ => [{ name := "Dr. A" }]) { name := "X", website := "" } =
      ({ name := "X", website := "" }, []) :=
  ⟨rfl, C10_no_website _ _ _ rfl⟩

/-- C3: on a business entering enrichment with an empty contact list (as
every business produced by the directory search does), the contacts
attached are exactly the first `min n 2` of the `n` valid parsed oracle
contacts, in oracle order — never more than two. -/
theorem C3_at_most_two (b : Business) (raw : List RawContact)
    (h : b.contact_persons = []) :
    (applyContacts b (parseContacts raw)).contact_persons = (parseContacts raw).take 2 ∧
    (applyContacts b (parseContacts raw)).contact_persons.length =
      min (parseContacts raw).length 2 ∧
    (applyContacts b (parseContacts raw)).contact_persons.length ≤ 2 := by
  have h1 : (applyContacts b (parseContacts raw)).contact_persons =
      (parseContacts raw).take 2 := by
    unfold applyContacts
    split
    · next he => simp [he, h]
    · rfl
  refine ⟨h1, ?_, ?_⟩
  · rw [h1, List.length_take, Nat.min_comm]
  · rw [h1, List.length_take]
    omega

/-- Witness for C3: three valid oracle contacts, exactly the first two
retained. -/
theorem C3_at_most_two_witness :
    ({} : Business).contact_persons = [] ∧
    (applyContacts {} (parseContacts
        [{ name := "A" }, { name := "B" }, { name := "C" }])).contact_persons =
      (parseContacts [{ name := "A" }, { name := "B" }, { name := "C" }]).take 2 :=
  ⟨rfl, (C3_at_most_two {} [{ name := "A" }, { name := "B" }, { name := "C" }] rfl).1⟩


/-- Helper: the blanked email of a converted contact is empty whenever the
raw email fails validation, and a surviving non-empty email passed
validation. -/
theorem convertContact_email (c : RawContact) :
    (convertContact c).email = "" ∨
    ((convertContact c).email = c.email ∧ isValidEmail c.email = true) := by
  by_cases he : c.email = "" <;> by_cases hv : isValidEmail c.email <;>
    simp [convertContact, he, hv]

/-- Helper: a converted contact with an invalid raw email carries the empty
email. -/
theorem convertContact_email_blank (c : RawContact)
    (hv : isValidEmail c.email = false) : (convertContact c).email = "" := by
  by_cases he : c.email = "" <;> simp [convertContact, he, hv]

/-- Helper: membership in `parseContacts`. -/
theorem mem_parseContacts (raw : List RawContact) (c : RawContact)
    (hc : c ∈ raw) (hn : c.name ≠ "") : convertContact c ∈ parseContacts raw := by
  induction raw with
  | nil => cases hc
  | cons d rest ih =>
    rcases List.mem_cons.mp hc with h | h
    · subst h
      simp [parseContacts, hn]
    · by_cases hd : d.name = "" <;> simp [parseContacts, hd, ih h]

/-- Helper: every parsed contact is the conversion of some raw candidate
with a non-empty name. -/
theorem parseContacts_mem (raw : List RawContact) (p : ContactPerson)
    (hp : p ∈ parseContacts raw) :
    ∃ c ∈ raw, c.name ≠ "" ∧ p = convertContact c := by
  induction raw with
  | nil => cases hp
  | cons d rest ih =>
    by_cases hd : d.name = ""
    · simp only [parseContacts, if_pos hd] at hp
      obtain ⟨c, hc, h⟩ := ih hp
      exact ⟨c, List.mem_cons_of_mem _ hc, h⟩
    · simp only [parseContacts, if_neg hd] at hp
      rcases List.mem_cons.mp hp with h | h
      · exact ⟨d, List.mem_cons_self _ _, hd, h⟩
      · obtain ⟨c, hc, h⟩ := ih h
        exact ⟨c, List.mem_cons_of_mem _ hc, h⟩

/-- C4: a contact candidate whose email fails the strict syntax rule is
kept (one parsed contact per named candidate) with its email blanked, and
no parsed contact carries a non-empty email that fails the strict check. -/
theorem C4_email_validation (raw : List RawContact) :
    ((parseContacts raw).length = (raw.filter (fun c => c.name ≠ "")).length) ∧
    (∀ c ∈ raw, c.name ≠ "" → isValidEmail c.email = false →
      convertContact c ∈ parseContacts raw ∧ (convertContact c).email = "") ∧
    (∀ p ∈ parseContacts raw, p.email ≠ "" → isValidEmail p.email = true) := by
  refine ⟨?_, ?_, ?_⟩
  · induction raw with
    | nil => rfl
    | cons d rest ih => by_cases hd : d.name = "" <;> simp [parseContacts, hd, ih]
  · intro c hc hn hv
    exact ⟨mem_parseContacts raw c hc hn, convertContact_email_blank c hv⟩
  · intro p hp hne
    obtain ⟨c, _, _, rfl⟩ := parseContacts_mem raw p hp
    rcases convertContact_email c with h | ⟨he, hv⟩
    · exact absurd h hne
    · rw [he]
      exact hv

/-- Witness for C4: an invalid-email candidate is kept with a blank email. -/
theorem C4_email_validation_witness :
    ({ name := "A", email := "not-an-email" } : RawContact) ∈
      [({ name := "A", email := "not-an-email" } : RawContact)] ∧
    ({ name := "A", email := "not-an-email" } : RawContact).name ≠ "" ∧
    isValidEmail "not-an-email" = false ∧
    (convertContact { name := "A", email := "not-an-email" } ∈
        parseContacts [{ name := "A", email := "not-an-email" }] ∧
      (convertContact { name := "A", email := "not-an-email" }).email = "") :=
  ⟨by decide, by decide, by decide,
    (C4_email_validation [{ name := "A", email := "not-an-email" }]).2.1
      _ (by decide) (by decide) (by decide)⟩


/-- Helper: two String values with equal character data are equal. -/
theorem string_data_inj {s t : String} (h : s.data = t.data) : s = t := by
  cases s
  cases t
  exact congrArg String.mk h

/-- Helper: the join of two or more parts contains the bar separator. -/
theorem joinBar_mem_bar (p q : Url) (rest : List Url) :
    '|' ∈ joinBar (p :: q :: rest) := by
  simp [joinBar]

/-- Helper: splitting at the first bar of a bar-separated concatenation is
unambiguous when the leading parts are bar-free. -/
theorem joinBar_split (p₁ : Url) : ∀ (p₂ r₁ r₂ : Url), '|' ∉ p₁ → '|' ∉ p₂ →
    p₁ ++ '|' :: r₁ = p₂ ++ '|' :: r₂ → p₁ = p₂ ∧ r₁ = r₂ := by
  induction p₁ with
  | nil =>
    intro p₂ r₁ r₂ _ h₂ h
    cases p₂ with
    | nil => simpa using h
    | cons c p =>
      exfalso
      simp only [List.nil_append, List.cons_append, List.cons.injEq] at h
      exact h₂ (h.1 ▸ List.mem_cons_self c p)
  | cons a p ih =>
    intro p₂ r₁ r₂ h₁ h₂ h
    cases p₂ with
    | nil =>
      exfalso
      simp only [List.nil_append, List.cons_append, List.cons.injEq] at h
      exact h₁ (h.1 ▸ List.mem_cons_self a p)
    | cons b q =>
      simp only [List.cons_append, List.cons.injEq] at h
      obtain ⟨hab, hrest⟩ := h
      obtain ⟨hpq, hr⟩ := ih q r₁ r₂ (fun hm => h₁ (List.mem_cons_of_mem _ hm))
        (fun hm => h₂ (List.mem_cons_of_mem _ hm)) hrest
      exact ⟨by rw [hab, hpq], hr⟩

/-- Helper: on non-empty lists of bar-free parts, the bar join is
injective. -/
theorem joinBar_inj : ∀ (l₁ l₂ : List Url), l₁ ≠ [] → l₂ ≠ [] →
    (∀ p ∈ l₁, '|' ∉ p) → (∀ p ∈ l₂, '|' ∉ p) →
    joinBar l₁ = joinBar l₂ → l₁ = l₂ := by
  intro l₁
  induction l₁ with
  | nil => intro l₂ h₁; exact absurd rfl h₁
  | cons p l₁ ih =>
    intro l₂ _ h₂ n₁ n₂ h
    cases l₂ with
    | nil => exact absurd rfl h₂
    | cons q l₂ =>
      cases l₁ with
      | nil =>
        cases l₂ with
        | nil =>
          simp only [joinBar] at h
          rw [h]
        | cons q₂ l₂ =>
          exfalso
          have hq : joinBar [p] = p := rfl
          rw [hq] at h
          exact n₁ p (List.mem_cons_self _ _) (h ▸ joinBar_mem_bar q q₂ l₂)
      | cons p₂ l₁ =>
        cases l₂ with
        | nil =>
          exfalso
          have hq : joinBar [q] = q := rfl
          rw [hq] at h
          exact n₂ q (List.mem_cons_self _ _) (h ▸ joinBar_mem_bar p p₂ l₁)
        | cons q₂ l₂ =>
          have h₃ : p ++ '|' :: joinBar (p₂ :: l₁) = q ++ '|' :: joinBar (q₂ :: l₂) := h
          obtain ⟨hpq, hrest⟩ := joinBar_split p q _ _
            (n₁ p (List.mem_cons_self _ _)) (n₂ q (List.mem_cons_self _ _)) h₃
          have htail := ih (q₂ :: l₂) (by simp) (by simp)
            (fun x hx => n₁ x (List.mem_cons_of_mem _ hx))
            (fun x hx => n₂ x (List.mem_cons_of_mem _ hx)) hrest
          rw [hpq, htail]

/-- C8 counterexample: two distinct tagged tuples whose `"|"`-joined
encodings — the exact strings `_cache_key` feeds to SHA-256 — coincide, so
the encoding is not injective over arbitrary string parameters. -/
theorem C8_counterexample :
    cacheKeyRaw ["enrichment", "a|b", "c"] = cacheKeyRaw ["enrichment", "a", "b|c"] ∧
    (["enrichment", "a|b", "c"] : List String) ≠ ["enrichment", "a", "b|c"] := by
  constructor
  · rfl
  · decide

/-- C8 (amended): the `"|"`-joined encoding fed to SHA-256 is injective
over non-empty tagged tuples whose components contain no `"|"` character;
components containing `"|"` can collide. -/
theorem C8_cache_key_injective (parts₁ parts₂ : List String)
    (h₁ : parts₁ ≠ []) (h₂ : parts₂ ≠ [])
    (n₁ : ∀ p ∈ parts₁, '|' ∉ p.data) (n₂ : ∀ p ∈ parts₂, '|' ∉ p.data)
    (h : cacheKeyRaw parts₁ = cacheKeyRaw parts₂) : parts₁ = parts₂ := by
  have hmap : parts₁.map String.data = parts₂.map String.data := by
    refine joinBar_inj _ _ ?_ ?_ ?_ ?_ h
    · simpa using h₁
    · simpa using h₂
    · intro p hp
      obtain ⟨x, hx, rfl⟩ := List.mem_map.mp hp
      exact n₁ x hx
    · intro p hp
      obtain ⟨x, hx, rfl⟩ := List.mem_map.mp hp
      exact n₂ x hx
  exact List.map_injective_iff.mpr (fun a b hab => string_data_inj hab) hmap

/-- Witness for C8 at concrete bar-free tuples. -/
theorem C8_cache_key_injective_witness :
    (["enrichment", "Praxis A", "https://a.example"] : List String) ≠ [] ∧
    (["enrichment", "Praxis A", "https://a.example"] : List String) =
      ["enrichment", "Praxis A", "https://a.example"] :=
  ⟨by decide,
    C8_cache_key_injective _ _ (by decide) (by decide)
      (by decide) (by decide) rfl⟩


/-- Helper: the page-content characters included by the combine loop never
exceed the remaining budget. -/
theorem combineParts_sum_le (pages : List (Url × Url)) :
    ∀ totalLen, ((combineParts totalLen pages).map (fun p => p.2.length)).sum ≤
      MAX_TEXT_PER_REQUEST - totalLen := by
  induction pages with
  | nil =>
    intro t
    simp [combineParts]
  | cons pg rest ih =>
    intro t
    obtain ⟨pageName, text⟩ := pg
    simp only [combineParts]
    split
    · simp
    · simp only [List.map_cons, List.sum_cons]
      have h1 : (text.take (MAX_TEXT_PER_REQUEST - t)).length ≤ MAX_TEXT_PER_REQUEST - t := by
        rw [List.length_take]
        omega
      have h2 := ih (t + (text.take (MAX_TEXT_PER_REQUEST - t)).length)
      omega

/-- Helper: every chunk the combine loop emits is an initial segment of the
text of one of the input pages, carried under that page label. -/
theorem combineParts_mem (pages : List (Url × Url)) :
    ∀ totalLen p, p ∈ combineParts totalLen pages →
      ∃ text k, (p.1, text) ∈ pages ∧ p.2 = text.take k := by
  induction pages with
  | nil =>
    intro t p hp
    simp [combineParts] at hp
  | cons pg rest ih =>
    intro t p hp
    obtain ⟨pageName, text⟩ := pg
    simp only [combineParts] at hp
    split at hp
    · cases hp
    · rcases List.mem_cons.mp hp with h | h
      · subst h
        exact ⟨text, MAX_TEXT_PER_REQUEST - t, List.mem_cons_self _ _, rfl⟩
      · obtain ⟨text₂, k, hm, hk⟩ := ih _ p h
        exact ⟨text₂, k, List.mem_cons_of_mem _ hm, hk⟩

/-- C9 counterexample: with a first page exactly as long as the budget, the
second (non-empty) page contributes nothing — one page can starve the
rest. -/
theorem C9_counterexample :
    (combineParts 0 [("a".data, List.replicate MAX_TEXT_PER_REQUEST 'x'),
        ("b".data, "hello".data)]).map (fun p => p.1) = ["a".data] ∧
    ("hello".data ≠ ([] : List Char)) := by
  have e2 : (List.replicate MAX_TEXT_PER_REQUEST 'x').take (MAX_TEXT_PER_REQUEST - 0) =
      List.replicate MAX_TEXT_PER_REQUEST 'x' :=
    List.take_of_length_le (by simp)
  constructor
  · simp only [combineParts, e2, List.length_replicate]
    norm_num [MAX_TEXT_PER_REQUEST]
  · decide

/-- C9 (amended): the combined text keeps the total page-content length
within the 15000-character budget and prefixes each included chunk with its
page label; the budget is first-come-first-served, so an early page may
consume it entirely (see the counterexample). -/
theorem C9_budget_and_labels (pages : List (Url × Url)) :
    ((combineParts 0 pages).map (fun p => p.2.length)).sum ≤ MAX_TEXT_PER_REQUEST ∧
    (∀ part ∈ (combineParts 0 pages).map (fun p => renderPart p.1 p.2),
      ∃ pageName text k, (pageName, text) ∈ pages ∧
        part = "--- Seite: ".data ++ pageName ++ " ---\n".data ++ text.take k) ∧
    combinePages pages =
      List.intercalate "\n\n".data
        ((combineParts 0 pages).map (fun p => renderPart p.1 p.2)) := by
  refine ⟨by simpa using combineParts_sum_le pages 0, ?_, rfl⟩
  intro part hp
  obtain ⟨q, hq, rfl⟩ := List.mem_map.mp hp
  obtain ⟨text, k, hm, hk⟩ := combineParts_mem pages 0 q hq
  exact ⟨q.1, text, k, hm, by rw [renderPart, hk]⟩

/-- Witness for C9 on a concrete single-page input. -/
theorem C9_budget_and_labels_witness :
    renderPart "team".data "Dr".data ∈
      (combineParts 0 [("team".data, "Dr".data)]).map (fun p => renderPart p.1 p.2) ∧
    (∃ pageName text k, (pageName, text) ∈ [("team".data, "Dr".data)] ∧
      renderPart "team".data "Dr".data =
        "--- Seite: ".data ++ pageName ++ " ---\n".data ++ text.take k) :=
  ⟨by decide,
    (C9_budget_and_labels [("team".data, "Dr".data)]).2.1 _ (by decide)⟩


/-- Helper: filling slots by index preserves the slot-array length. -/
theorem foldlSet_length {α : Type} (w : Nat → α) (order : List Nat) :
    ∀ slots : List α,
      (order.foldl (fun s i => s.set i (w i)) slots).length = slots.length := by
  induction order with
  | nil =>
    intro slots
    rfl
  | cons j rest ih =>
    intro slots
    rw [List.foldl_cons, ih, List.length_set]

/-- Helper: an index that never completes keeps its original slot. -/
theorem foldlSet_get_not_mem {α : Type} (w : Nat → α) (order : List Nat) :
    ∀ (slots : List α) (i : Nat), i ∉ order →
      (order.foldl (fun s i => s.set i (w i)) slots)[i]? = slots[i]? := by
  induction order with
  | nil =>
    intro slots i _
    rfl
  | cons j rest ih =>
    intro slots i hi
    rw [List.foldl_cons, ih _ _ (fun h => hi (List.mem_cons_of_mem _ h))]
    exact List.getElem?_set_ne (by rintro rfl; exact hi (List.mem_cons_self _ _))

/-- Helper: an index that completes at least once holds its own worker
result, regardless of the completion order. -/
theorem foldlSet_get_mem {α : Type} (w : Nat → α) (order : List Nat) :
    ∀ (slots : List α) (i : Nat), i ∈ order → i < slots.length →
      (order.foldl (fun s i => s.set i (w i)) slots)[i]? = some (w i) := by
  induction order with
  | nil =>
    intro _ i hi _
    cases hi
  | cons j rest ih =>
    intro slots i hi hlen
    rw [List.foldl_cons]
    by_cases hm : i ∈ rest
    · exact ih _ _ hm (by rw [List.length_set]; exact hlen)
    · have hij : i = j := by
        rcases List.mem_cons.mp hi with h | h
        · exact h
        · exact absurd h hm
      subst hij
      rw [foldlSet_get_not_mem w rest _ _ hm]
      exact List.getElem?_set_self hlen

/-- Helper: `getD` at an in-bounds index with any fallback is the element. -/
theorem getD_of_lt {α : Type} [Inhabited α] (l : List α) (i : Nat)
    (h : i < l.length) : l.getD i default = l[i] := by
  rw [List.getD_eq_getElem?_getD, List.getElem?_eq_getElem h]
  rfl

/-- C1: for any completion order of the futures, the orchestrator returns
one business per input slot — same length, original input order — and a
slot whose worker hit a cache miss and whose pipeline raised holds the
pre-enrichment record unchanged while every other slot still holds its own
worker result. -/
theorem C1_orchestrator (cache : String → String → Option Business)
    (pipeline : Nat → Business → Option Business)
    (businesses : List Business) (order : List Nat)
    (hperm : order.Perm (List.range businesses.length)) :
    (runBatch cache pipeline businesses order).length = businesses.length ∧
    (∀ i, (hi : i < businesses.length) →
      (runBatch cache pipeline businesses order)[i]? =
        some (enrichWorker cache pipeline i businesses[i])) ∧
    (∀ i, (hi : i < businesses.length) →
      cache businesses[i].name businesses[i].website = none →
      pipeline i businesses[i] = none →
      (runBatch cache pipeline businesses order)[i]? = some businesses[i]) := by
  have hslot : ∀ i, (hi : i < businesses.length) →
      (runBatchSlots cache pipeline businesses order)[i]? =
        some (some (enrichWorker cache pipeline i businesses[i])) := by
    intro i hi
    have hmem : i ∈ order := hperm.mem_iff.mpr (List.mem_range.mpr hi)
    have h := foldlSet_get_mem
      (fun idx => some (enrichWorker cache pipeline idx (businesses.getD idx default)))
      order (List.replicate businesses.length none) i hmem (by simpa using hi)
    rw [runBatchSlots, h]
    show some (some (enrichWorker cache pipeline i (businesses.getD i default))) =
      some (some (enrichWorker cache pipeline i businesses[i]))
    rw [getD_of_lt businesses i hi]
  have hmain : ∀ i, (hi : i < businesses.length) →
      (runBatch cache pipeline businesses order)[i]? =
        some (enrichWorker cache pipeline i businesses[i]) := by
    intro i hi
    rw [runBatch, List.getElem?_map, hslot i hi]
    rfl
  refine ⟨?_, hmain, ?_⟩
  · rw [runBatch, List.length_map, runBatchSlots, foldlSet_length, List.length_replicate]
  · intro i hi hc hp
    rw [hmain i hi, enrichWorker, hc, hp]

/-- Witness for C1: two businesses completing out of order, the pipeline
raising on the first — both slots are returned in input order, the failing
slot unchanged. -/
theorem C1_orchestrator_witness :
    ([1, 0] : List Nat).Perm (List.range 2) ∧
    (runBatch (fun _ _ => none)
        (fun i b => if i = 0 then none
          else some { b with contact_persons := [{ name := "P" }] })
        [{ name := "A", website := "wa" }, { name := "B", website := "wb" }]
        [1, 0])[0]? = some { name := "A", website := "wa" } :=
  ⟨by decide,
    (C1_orchestrator (fun _ _ => none)
        (fun i b => if i = 0 then none
          else some { b with contact_persons := [{ name := "P" }] })
        [{ name := "A", website := "wa" }, { name := "B", website := "wb" }]
        [1, 0] (by decide)).2.2 0 (by decide) rfl rfl⟩


/-- Helper: stripping whitespace only removes characters. -/
theorem pyStrip_mem (cs : List Char) (c : Char) (h : c ∈ pyStrip cs) : c ∈ cs := by
  unfold pyStrip at h
  rw [List.mem_reverse] at h
  have h2 : c ∈ (cs.dropWhile isPySpace).reverse :=
    (List.dropWhile_sublist _).mem h
  rw [List.mem_reverse] at h2
  exact (List.dropWhile_sublist _).mem h2

/-- Helper: on a newline-free string the fragment substitution cuts at the
first hash character. -/
theorem stripFragment_of_no_newline (cs : List Char) (h : '\n' ∉ cs) :
    stripFragment cs = cs.takeWhile (fun c => c ≠ '#') := by
  have hl : cs.reverse.takeWhile (fun c => c ≠ '\n') = cs.reverse := by
    rw [List.takeWhile_eq_self_iff]
    intro x hx
    simp only [ne_eq, decide_eq_true_eq]
    exact fun he => h (he ▸ List.mem_reverse.mp hx)
  simp only [stripFragment, hl, List.reverse_reverse, Nat.sub_self, List.take_zero,
    List.nil_append]

/-- Helper: a normalized newline-free URL contains no hash character. -/
theorem normalizeUrl_no_hash (url u : Url) (h : '\n' ∉ url)
    (hu : normalizeUrl url = some u) : '#' ∉ u := by
  have hstrip : '\n' ∉ pyStrip url := fun hm => h (pyStrip_mem url _ hm)
  simp only [normalizeUrl] at hu
  split at hu
  · cases hu
  · injection hu with hu
    rw [← hu, stripFragment_of_no_newline _ hstrip]
    intro hm
    have hp := List.mem_takeWhile_imp hm
    simp at hp

/-- Helper: invariants of the crawl loop — the result list never exceeds
the limit, never repeats a URL, and (when the seed host is non-empty)
contains only same-host URLs. -/
theorem crawlLoop_inv (fetchLinks : Url → List Url) (hostOf : Url → Url) (baseHost : Url)
    (maxDepth limit : Nat) :
    ∀ (fuel : Nat) (queue : List (Url × Nat)) (seen results : List Url),
      results.length ≤ limit → results.Nodup → (∀ r ∈ results, r ∈ seen) →
      (∀ r ∈ results, baseHost ≠ [] → hostOf r = baseHost) →
      ((crawlLoop fetchLinks hostOf baseHost maxDepth limit fuel queue seen results).length
          ≤ limit ∧
        (crawlLoop fetchLinks hostOf baseHost maxDepth limit fuel queue seen results).Nodup ∧
        (∀ r ∈ crawlLoop fetchLinks hostOf baseHost maxDepth limit fuel queue seen results,
          baseHost ≠ [] → hostOf r = baseHost)) := by
  intro fuel
  induction fuel with
  | zero =>
    intro queue seen results h1 h2 h3 h4
    exact ⟨h1, h2, h4⟩
  | succ fuel ih =>
    intro queue seen results h1 h2 h3 h4
    rcases queue with _ | ⟨⟨rawUrl, depth⟩, queue⟩
    · exact ⟨h1, h2, h4⟩
    · rw [crawlLoop]
      split
      · exact ⟨h1, h2, h4⟩
      · next hlt =>
        rcases hn : normalizeUrl rawUrl with _ | url
        · exact ih queue seen results h1 h2 h3 h4
        · dsimp only
          by_cases hseen : url = [] ∨ url ∈ seen
          · rw [if_pos hseen]
            exact ih queue seen results h1 h2 h3 h4
          · rw [if_neg hseen]
            by_cases hasset : isAsset url = true
            · rw [if_pos hasset]
              exact ih queue seen results h1 h2 h3 h4
            · rw [if_neg hasset]
              by_cases hhost : baseHost ≠ [] ∧ hostOf url ≠ baseHost
              · rw [if_pos hhost]
                exact ih queue seen results h1 h2 h3 h4
              · rw [if_neg hhost]
                have hnotseen : url ∉ seen := fun hm => hseen (Or.inr hm)
                have hnew1 : (results ++ [url]).length ≤ limit := by
                  rw [List.length_append, List.length_singleton]
                  omega
                have hnew2 : (results ++ [url]).Nodup := by
                  rw [List.nodup_append]
                  refine ⟨h2, List.nodup_singleton _, ?_⟩
                  intro a ha hb
                  rw [List.mem_singleton] at hb
                  exact hnotseen (hb ▸ h3 a ha)
                have hnew3 : ∀ r ∈ results ++ [url], r ∈ url :: seen := by
                  intro r hr
                  rcases List.mem_append.mp hr with hm | hm
                  · exact List.mem_cons_of_mem _ (h3 r hm)
                  · rw [List.mem_singleton] at hm
                    rw [hm]
                    exact List.mem_cons_self _ _
                have hnew4 : ∀ r ∈ results ++ [url], baseHost ≠ [] → hostOf r = baseHost := by
                  intro r hr hb
                  rcases List.mem_append.mp hr with hm | hm
                  · exact h4 r hm hb
                  · rw [List.mem_singleton] at hm
                    rw [hm]
                    by_contra hne
                    exact hhost ⟨hb, hne⟩
                split
                · exact ih queue (url :: seen) (results ++ [url]) hnew1 hnew2 hnew3 hnew4
                · exact ih _ (url :: seen) (results ++ [url]) hnew1 hnew2 hnew3 hnew4

/-- C6: under the actual call parameters of `_discover_urls`
(`CRAWL_DEPTH`, `MAX_URLS`), and for a seed whose host parses non-empty
(the `if base_host` guard disables the host filter otherwise), the crawl
tier returns at most 200 URLs, never the same URL twice, and only URLs on
the seed host. -/
theorem C6_crawl_invariants (fetchLinks : Url → List Url) (hostOf : Url → Url)
    (baseUrl : Url) (fuel : Nat) (hhost : hostOf baseUrl ≠ []) :
    (crawlSite fetchLinks hostOf baseUrl CRAWL_DEPTH MAX_URLS fuel).length ≤ 200 ∧
    (crawlSite fetchLinks hostOf baseUrl CRAWL_DEPTH MAX_URLS fuel).Nodup ∧
    (∀ r ∈ crawlSite fetchLinks hostOf baseUrl CRAWL_DEPTH MAX_URLS fuel,
      hostOf r = hostOf baseUrl) := by
  have h := crawlLoop_inv fetchLinks hostOf (hostOf baseUrl) CRAWL_DEPTH MAX_URLS fuel
    [(baseUrl, 0)] [] [] (by simp) List.nodup_nil (by simp) (by simp)
  exact ⟨h.1, h.2.1, fun r hr => h.2.2 r hr hhost⟩

/-- Witness for C6 on a concrete site graph with an off-host link, an
asset link, a fragment link and a repeated link. -/
theorem C6_crawl_invariants_witness :
    ((fun _ : Url => "h".data) "http://h/a".data ≠ []) ∧
    ((crawlSite
        (fun u => if u = "http://h/a".data then
          ["http://h/b#x".data, "http://h/a".data, "http://other/c".data,
            "http://h/d.pdf".data] else [])
        (fun _ => "h".data) "http://h/a".data CRAWL_DEPTH MAX_URLS 8).length ≤ 200 ∧
      (crawlSite
        (fun u => if u = "http://h/a".data then
          ["http://h/b#x".data, "http://h/a".data, "http://other/c".data,
            "http://h/d.pdf".data] else [])
        (fun _ => "h".data) "http://h/a".data CRAWL_DEPTH MAX_URLS 8).Nodup ∧
      (∀ r ∈ crawlSite
        (fun u => if u = "http://h/a".data then
          ["http://h/b#x".data, "http://h/a".data, "http://other/c".data,
            "http://h/d.pdf".data] else [])
        (fun _ => "h".data) "http://h/a".data CRAWL_DEPTH MAX_URLS 8,
        (fun _ : Url => "h".data) r = "h".data)) :=
  ⟨by decide,
    C6_crawl_invariants
      (fun u => if u = "http://h/a".data then
        ["http://h/b#x".data, "http://h/a".data, "http://other/c".data,
          "http://h/d.pdf".data] else [])
      (fun _ => "h".data) "http://h/a".data 8 (by decide)⟩


/-- C7 counterexample: a sitemap whose single `loc` entry carries a URL
fragment is returned by discovery verbatim — the sitemap tier does not
strip fragments, refuting the claim for "any of the three tiers". -/
theorem C7_counterexample :
    (discoverUrls (parseSitemapLocs ["https://ex.com/a#frag".data]) [] []).1 =
      ["https://ex.com/a#frag".data] ∧
    '#' ∈ "https://ex.com/a#frag".data := by
  constructor
  · rfl
  · decide

/-- Helper: the crawl loop emits no URL containing a hash character, as
long as every queued URL is newline-free and the link extractor only
produces newline-free URLs. -/
theorem crawlLoop_no_hash (fetchLinks : Url → List Url) (hostOf : Url → Url) (baseHost : Url)
    (maxDepth limit : Nat) (hlinks : ∀ u l, l ∈ fetchLinks u → '\n' ∉ l) :
    ∀ (fuel : Nat) (queue : List (Url × Nat)) (seen results : List Url),
      (∀ q ∈ queue, '\n' ∉ q.1) → (∀ r ∈ results, '#' ∉ r) →
      ∀ r ∈ crawlLoop fetchLinks hostOf baseHost maxDepth limit fuel queue seen results,
        '#' ∉ r := by
  intro fuel
  induction fuel with
  | zero =>
    intro queue seen results _ h2
    exact h2
  | succ fuel ih =>
    intro queue seen results h1 h2
    rcases queue with _ | ⟨⟨rawUrl, depth⟩, queue⟩
    · exact h2
    · have hraw : '\n' ∉ rawUrl := h1 (rawUrl, depth) (List.mem_cons_self _ _)
      have h1q : ∀ q ∈ queue, '\n' ∉ q.1 :=
        fun q hq => h1 q (List.mem_cons_of_mem _ hq)
      rw [crawlLoop]
      split
      · exact h2
      · rcases hn : normalizeUrl rawUrl with _ | url
        · exact ih queue seen results h1q h2
        · dsimp only
          have hurl : '#' ∉ url := normalizeUrl_no_hash rawUrl url hraw hn
          have h2q : ∀ r ∈ results ++ [url], '#' ∉ r := by
            intro r hr
            rcases List.mem_append.mp hr with hm | hm
            · exact h2 r hm
            · rw [List.mem_singleton] at hm
              rw [hm]
              exact hurl
          by_cases hseen : url = [] ∨ url ∈ seen
          · rw [if_pos hseen]
            exact ih queue seen results h1q h2
          · rw [if_neg hseen]
            by_cases hasset : isAsset url = true
            · rw [if_pos hasset]
              exact ih queue seen results h1q h2
            · rw [if_neg hasset]
              by_cases hhost : baseHost ≠ [] ∧ hostOf url ≠ baseHost
              · rw [if_pos hhost]
                exact ih queue seen results h1q h2
              · rw [if_neg hhost]
                split
                · exact ih queue (url :: seen) (results ++ [url]) h1q h2q
                · refine ih _ (url :: seen) (results ++ [url]) ?_ h2q
                  intro q hq
                  rcases List.mem_append.mp hq with hm | hm
                  · exact h1q q hm
                  · obtain ⟨l, hl, rfl⟩ := List.mem_map.mp hm
                    exact hlinks url l (List.mem_of_mem_filter hl)

/-- C7 (amended): every URL the crawl tier emits is fragment-free — the
crawl loop normalizes each URL before emission — provided the seed and all
extracted links are newline-free (which `urljoin`/`urlsplit` guarantee
upstream by stripping ASCII newlines).  The sitemap and common-path tiers
are not fragment-stripped and may emit fragments (see the
counterexample). -/
theorem C7_crawl_fragment_free (fetchLinks : Url → List Url) (hostOf : Url → Url)
    (baseUrl : Url) (maxDepth limit fuel : Nat)
    (hbase : '\n' ∉ baseUrl) (hlinks : ∀ u l, l ∈ fetchLinks u → '\n' ∉ l) :
    ∀ r ∈ crawlSite fetchLinks hostOf baseUrl maxDepth limit fuel, '#' ∉ r := by
  refine crawlLoop_no_hash fetchLinks hostOf (hostOf baseUrl) maxDepth limit hlinks
    fuel [(baseUrl, 0)] [] [] ?_ (by simp)
  intro q hq
  rw [List.mem_singleton] at hq
  rw [hq]
  exact hbase

/-- Witness for C7: a crawl over links carrying fragments emits them
stripped. -/
theorem C7_crawl_fragment_free_witness :
    ('\n' ∉ "http://h".data) ∧
    "http://h/c".data ∈ crawlSite (fun _ => ["http://h/c#frag".data])
      (fun _ => "h".data) "http://h".data CRAWL_DEPTH MAX_URLS 6 ∧
    '#' ∉ "http://h/c".data :=
  ⟨by decide, by decide,
    C7_crawl_fragment_free (fun _ => ["http://h/c#frag".data]) (fun _ => "h".data)
      "http://h".data CRAWL_DEPTH MAX_URLS 6 (by decide)
      (by
        intro u l hl
        rw [List.mem_singleton] at hl
        rw [hl]
        decide)
      "http://h/c".data (by decide)⟩

end MyMedia
